import Mathlib

set_option maxHeartbeats 1000000

/- Shallow embedding of src/brute.py (PDF password brute forcer).
   External library behaviour that the source relies on is modelled from its
   documented semantics where the claims depend on it:
   - datetime.strptime with format "%d%m%y" (CPython _strptime: the directive
     %d matches the regex alternatives 3[01] | [12][0-9] | 0[1-9] | [1-9] | a
     space followed by [1-9]; %m matches 1[0-2] | 0[1-9] | [1-9]; %y matches
     exactly two decimal digits, with the pivot 0..68 -> 2000..2068 and
     69..99 -> 1969..1999; the resulting day must fit the month of the
     resulting year, else ValueError).  On a 6-character input the whole
     string must be consumed and %y always takes 2 characters, so %d and %m
     each take exactly their 2-character alternatives; the 1-character
     alternatives can never take part in a successful 6-character match.
   - PyPDF2 decrypt is an opaque fallible probe, modelled as a parameter of
     type List Char -> Except Unit Nat (Except.error stands for a raised
     exception, Except.ok v for a returned int; the source treats only the
     return value 1 as success).
   - itertools.product / itertools.islice over the digit alphabet. -/

/-- Digit alphabet: the string `digits = "0123456789"` of the source. -/
def digits : List Char := "0123456789".toList

/-- Character for a decimal digit value. -/
def digitChar (v : Nat) : Char := Char.ofNat (48 + v)

/-- Numeric value of a digit character. -/
def digVal (c : Char) : Nat := c.toNat - 48

/-- Two-character match of the strptime directive %d (day), transcribed from
the CPython regex alternatives of length two: 3[01], [12][0-9], 0[1-9] and
a space followed by [1-9]. -/
def dayMatch2 (a b : Char) : Option Nat :=
  if a = '3' ∧ (b = '0' ∨ b = '1') then some (30 + digVal b)
  else if (a = '1' ∨ a = '2') ∧ b.isDigit then some (10 * digVal a + digVal b)
  else if a = '0' ∧ '1' ≤ b ∧ b ≤ '9' then some (digVal b)
  else if a = ' ' ∧ '1' ≤ b ∧ b ≤ '9' then some (digVal b)
  else none

/-- Two-character match of the strptime directive %m (month): 1[0-2], 0[1-9]. -/
def monthMatch2 (a b : Char) : Option Nat :=
  if a = '1' ∧ (b = '0' ∨ b = '1' ∨ b = '2') then some (10 + digVal b)
  else if a = '0' ∧ '1' ≤ b ∧ b ≤ '9' then some (digVal b)
  else none

/-- Two-character match of the strptime directive %y: two decimal digits. -/
def yearMatch2 (a b : Char) : Option Nat :=
  if a.isDigit ∧ b.isDigit then some (10 * digVal a + digVal b) else none

/-- Century pivot of strptime for a two-digit year: 0..68 are the years
2000..2068, 69..99 are 1969..1999. -/
def pivotYear (y : Nat) : Nat := if y ≤ 68 then 2000 + y else 1900 + y

/-- Proleptic Gregorian leap-year rule used by Python datetime. -/
def isLeap (y : Nat) : Bool := y % 4 = 0 && (y % 100 ≠ 0 || y % 400 = 0)

/-- Days in a month of a given (full) year, as in Python datetime. -/
def daysInMonth (m y : Nat) : Nat :=
  if m = 2 then (if isLeap y then 29 else 28)
  else if m = 4 ∨ m = 6 ∨ m = 9 ∨ m = 11 then 30 else 31

/-- Model of datetime.strptime(s, "%d%m%y"): returns the parsed
(day, month, full year) or none where the library raises ValueError.
On inputs of length 6 the three directives must take two characters each
(see the header comment); any other length fails. -/
def strptimeDDMMYY (s : List Char) : Option (Nat × Nat × Nat) :=
  match s with
  | [a, b, c, d, e, f] =>
    match dayMatch2 a b, monthMatch2 c d, yearMatch2 e f with
    | some dv, some mv, some yv =>
      if dv ≤ daysInMonth mv (pivotYear yv) then some (dv, mv, pivotYear yv) else none
    | _, _, _ => none
  | _ => none

/-- Embedding of validate_date_suffix (src/brute.py lines 10-22): length
check, then strptime; a ValueError (modelled by none) yields false.  The
Lean function is total, which reflects that the source catches the only
exception strptime raises on string input. -/
def validate_date_suffix (s : List Char) : Bool :=
  if s.length ≠ 6 then false
  else (strptimeDDMMYY s).isSome

/-- Specification-side date rule, following the words of the spec: the six
characters are read as two-digit day, month and year numbers; the string is
a real date iff day ≥ 1, month in 1..12, and day at most the length of that
month under the fixed two-digit-year rule. -/
def specValidDDMMYY (s : List Char) : Bool :=
  match s with
  | [a, b, c, d, e, f] =>
    decide (1 ≤ 10 * digVal a + digVal b) &&
    decide (1 ≤ 10 * digVal c + digVal d) &&
    decide (10 * digVal c + digVal d ≤ 12) &&
    decide (10 * digVal a + digVal b ≤
      daysInMonth (10 * digVal c + digVal d) (pivotYear (10 * digVal e + digVal f)))
  | _ => false

/-- Embedding of itertools.product(digits, repeat=k) (src/brute.py line 41):
all k-character digit strings in lexicographic order, the leftmost position
varying slowest, exactly as the iterator yields them. -/
def productList : Nat → List (List Char)
  | 0 => [[]]
  | Nat.succ k => digits.flatMap (fun d => (productList k).map (fun rest => d :: rest))

/-- Zero-padded base-10 expansion of idx to k digits, most significant digit
first: the specification-side description of the variable part. -/
def zeropad (k idx : Nat) : List Char :=
  match k with
  | 0 => []
  | Nat.succ k => digitChar (idx / 10 ^ k % 10) :: zeropad k idx

/-- Candidate password composition (src/brute.py line 43). -/
def composePassword (fixed : List Char) (isPref : Bool) (rest : List Char) :
    List Char :=
  if isPref then fixed ++ rest else rest ++ fixed

/-- Candidate sequence a worker iterates over (src/brute.py lines 41-43):
itertools.islice(product, start, stop) yields positions start..stop-1. -/
def candidateSlice (fixed : List Char) (isPref : Bool) (start stop : Nat) :
    List (List Char) :=
  (((productList (11 - fixed.length)).drop start).take (stop - start)).map
    (composePassword fixed isPref)

/-- Replace a probe exception by the not-a-match return value 0. -/
def errAsNoMatch (decrypt : List Char → Except Unit Nat) :
    List Char → Except Unit Nat :=
  fun pw =>
    match decrypt pw with
    | Except.error _ => Except.ok 0
    | Except.ok v => Except.ok v

/-- Inner loop of test_password_range (src/brute.py lines 41-55) over a list
of candidate passwords: each iteration counts one attempt; a probe returning
1 reports the password and stops; any other return value, or an exception,
moves on to the next candidate.  Returns the number of attempts made and the
found password, if any. -/
def runCandidates (decrypt : List Char → Except Unit Nat) :
    List (List Char) → Nat × Option (List Char)
  | [] => (0, none)
  | pw :: rest =>
    match decrypt pw with
    | Except.ok 1 => (1, some pw)
    | _ =>
      let p := runCandidates decrypt rest
      (p.1 + 1, p.2)

/-- Embedding of test_password_range (src/brute.py lines 25-57) at the level
of its observable effects: the number of counter increments and the queue
messages it emits (the found password at line 52, or None at line 57 after
exhausting the slice). -/
def test_password_range (decrypt : List Char → Except Unit Nat)
    (fixed : List Char) (isPref : Bool) (start stop : Nat) :
    Nat × List (Option (List Char)) :=
  let p := runCandidates decrypt (candidateSlice fixed isPref start stop)
  (p.1, match p.2 with
        | some pw => [some pw]
        | none => [none])

/-- Truthiness of an optional string argument, as Python evaluates
`args.prefix` in a condition: an absent argument or an empty string is
falsy. -/
def truthyOpt : Option String → Bool
  | none => false
  | some s => !(s == "")

/-- Outcome of the argument validation block of __main__. -/
inductive ArgsOutcome where
  | usage (msg : String)
  | run (fixed : List Char) (isPref : Bool)
deriving DecidableEq

/-- Embedding of the __main__ validation block (src/brute.py lines 136-153),
with the truthiness tests exactly as written; usage means printing the
message and exit(1) before any worker is spawned, run means entering
parallel_brute_force with the chosen fixed part. -/
def validate_args (pre sfx : Option String) : ArgsOutcome :=
  if truthyOpt pre && truthyOpt sfx then
    ArgsOutcome.usage "Specify either one fixed part, not both."
  else if truthyOpt pre && !((pre.getD "").length == 5) then
    ArgsOutcome.usage "Prefix must be exactly 5 digits."
  else if truthyOpt sfx && (!((sfx.getD "").length == 6) ||
      !(validate_date_suffix (sfx.getD "").toList)) then
    ArgsOutcome.usage "Suffix must be a valid 6-digit date in the format DDMMYY."
  else if !(truthyOpt pre) && !(truthyOpt sfx) then
    ArgsOutcome.usage "You must specify one fixed part."
  else
    ArgsOutcome.run
      (if truthyOpt pre then (pre.getD "").toList else (sfx.getD "").toList)
      (truthyOpt pre)

/-- Ranges computed by the splitting loop of parallel_brute_force
(src/brute.py lines 97-99): worker i starts at i*chunk and ends at
(i+1)*chunk, except the last worker, whose end is the total count. -/
def splitRanges (total n : Nat) : List (Nat × Nat) :=
  (List.range n).map (fun i =>
    (i * (total / n), if i < n - 1 then (i + 1) * (total / n) else total))

/-- Membership of an index in a half-open range. -/
def inRange (r : Nat × Nat) (x : Nat) : Prop := r.1 ≤ x ∧ x < r.2

/-- Messages a worker contributes to the queue, including the open step
(src/brute.py lines 38-39): when opening or reading the PDF raises, the
worker process dies before its loop and never puts anything on the queue. -/
def workerOutputs (openOk : Bool) (decrypt : List Char → Except Unit Nat)
    (fixed : List Char) (isPref : Bool) (start stop : Nat) :
    List (Option (List Char)) :=
  if openOk then (test_password_range decrypt fixed isPref start stop).2 else []

/-- Final report of parallel_brute_force (src/brute.py lines 104-123): the
coordinator joins every worker (a join on a dead process returns), drains
the queue, and prints the found password if some queue item is a password,
or the exhaustion message otherwise. -/
def finalMessage (queueItems : List (Option (List Char))) : String :=
  match queueItems.filterMap id with
  | [] => "Password not found. Exhausted all combinations."
  | pw :: _ => "Password successfully found: " ++ String.mk pw

/-- Embedding of parallel_brute_force (src/brute.py lines 73-123) at the
level of its final report: workers run over the split ranges; the queue
order across workers is immaterial for the claims proved about it. -/
def parallel_brute_force (openOk : Bool) (decrypt : List Char → Except Unit Nat)
    (fixed : List Char) (isPref : Bool) (n : Nat) : String :=
  finalMessage ((splitRanges (10 ^ (11 - fixed.length)) n).flatMap
    (fun r => workerOutputs openOk decrypt fixed isPref r.1 r.2))

/-- Per-worker state in the concurrent model: index of the next candidate
and whether the process has finished. -/
structure WSt where
  idx : Nat
  done : Bool
deriving DecidableEq

/-- Shared configuration of a run of parallel_brute_force: the split ranges,
the fixed part, and the probe. -/
structure SysCfg where
  ranges : List (Nat × Nat)
  fixed : List Char
  isPref : Bool
  decrypt : List Char → Except Unit Nat

/-- Configuration built exactly as parallel_brute_force does
(src/brute.py lines 82-99). -/
def mkCfg (fixed : List Char) (isPref : Bool)
    (decrypt : List Char → Except Unit Nat) (n : Nat) : SysCfg :=
  ⟨splitRanges (10 ^ (11 - fixed.length)) n, fixed, isPref, decrypt⟩

/-- Candidate at an index, as the worker loop composes it (lines 41-43). -/
def candidateAt (cfg : SysCfg) (idx : Nat) : List Char :=
  composePassword cfg.fixed cfg.isPref
    ((productList (11 - cfg.fixed.length)).getD idx [])

/-- Whether the probe of the candidate at idx reports success (line 50):
only the return value 1 counts; an exception or any other value does not. -/
def probeAt (cfg : SysCfg) (idx : Nat) : Bool :=
  match cfg.decrypt (candidateAt cfg idx) with
  | Except.ok 1 => true
  | _ => false

/-- Global state of the concurrent model: the workers, the multiprocessing
queue contents (in arrival order) and the shared attempt counter. -/
structure SysSt where
  ws : List WSt
  queue : List (Option (List Char))
  counter : Nat
deriving DecidableEq

/-- Initial state: every worker at the start of its range (line 100). -/
def initSt (cfg : SysCfg) : SysSt :=
  ⟨cfg.ranges.map (fun r => ⟨r.1, false⟩), [], 0⟩

/-- One loop iteration of worker i, the atomic unit of interleaving: a
worker with remaining candidates increments the shared counter under the
lock (lines 45-47) and probes (lines 49-55); on success it puts the
password on the queue and returns (lines 51-53); a worker past its end puts
None and returns (line 57); a finished worker does nothing.  The loop
consults no cancellation signal: this is faithful to the source, whose
stop_flag reaches only the monitor process. -/
def stepWorker (cfg : SysCfg) (s : SysSt) (i : Nat) : SysSt :=
  if i < s.ws.length ∧ i < cfg.ranges.length then
    let w := s.ws.getD i ⟨0, false⟩
    let r := cfg.ranges.getD i (0, 0)
    if w.done then s
    else if w.idx < r.2 then
      if probeAt cfg w.idx then
        ⟨s.ws.set i ⟨w.idx, true⟩,
          s.queue ++ [some (candidateAt cfg w.idx)], s.counter + 1⟩
      else
        ⟨s.ws.set i ⟨w.idx + 1, false⟩, s.queue, s.counter + 1⟩
    else
      ⟨s.ws.set i ⟨w.idx, true⟩, s.queue ++ [none], s.counter⟩
  else s

/-- Run of a schedule: an arbitrary interleaving of worker steps. -/
def runSched (cfg : SysCfg) : List Nat → SysSt → SysSt
  | [], s => s
  | i :: rest, s => runSched cfg rest (stepWorker cfg s i)

/-- All workers have finished. -/
def CompletedSt (s : SysSt) : Prop := ∀ w ∈ s.ws, w.done = true

/-- Sum of the current worker indices. -/
def idxSum (s : SysSt) : Nat := (s.ws.map WSt.idx).sum

/-- Per-worker invariant relative to its range. -/
def WSinv (r : Nat × Nat) (w : WSt) : Prop :=
  r.1 ≤ w.idx ∧ w.idx ≤ r.2 ∧ (w.done = true → w.idx = r.2)

/-- System invariant: shapes, per-worker bounds, and the counter accounting
(the counter equals the number of candidates consumed so far, summed over
the workers). -/
def SysInv (cfg : SysCfg) (s : SysSt) : Prop :=
  s.ws.length = cfg.ranges.length ∧
  (∀ i, i < s.ws.length →
    WSinv (cfg.ranges.getD i (0, 0)) (s.ws.getD i ⟨0, false⟩)) ∧
  s.counter + (cfg.ranges.map Prod.fst).sum = idxSum s

/-- Canonical completing schedule: every worker in turn takes enough steps
to exhaust its range and emit its final queue message. -/
def fullSched (cfg : SysCfg) : List Nat :=
  (List.range cfg.ranges.length).flatMap
    (fun i => List.replicate
      ((cfg.ranges.getD i (0, 0)).2 - (cfg.ranges.getD i (0, 0)).1 + 1) i)

/-- Probe used in the cancellation scenario: the password with prefix
"12345" and variable part "000000" decrypts; every other candidate does
not. -/
def decC4 : List Char → Except Unit Nat :=
  fun pw => if pw = "12345000000".toList then Except.ok 1 else Except.ok 0

/-- Two-worker configuration of the cancellation scenario, exactly as
parallel_brute_force builds it for the prefix "12345". -/
def cfgC4 : SysCfg := mkCfg "12345".toList true decC4 2

/-- State after worker 0 probes its first candidate and finds it. -/
def st1C4 : SysSt := stepWorker cfgC4 (initSt cfgC4) 0

lemma dayMatch2_digit : ∀ a ∈ digits, ∀ b ∈ digits,
    dayMatch2 a b =
      if 1 ≤ 10 * digVal a + digVal b ∧ 10 * digVal a + digVal b ≤ 31
      then some (10 * digVal a + digVal b) else none := by decide

lemma monthMatch2_digit : ∀ a ∈ digits, ∀ b ∈ digits,
    monthMatch2 a b =
      if 1 ≤ 10 * digVal a + digVal b ∧ 10 * digVal a + digVal b ≤ 12
      then some (10 * digVal a + digVal b) else none := by decide

lemma yearMatch2_digit : ∀ a ∈ digits, ∀ b ∈ digits,
    yearMatch2 a b = some (10 * digVal a + digVal b) := by decide

lemma daysInMonth_le_31 (m y : Nat) : daysInMonth m y ≤ 31 := by
  unfold daysInMonth
  split
  · split <;> omega
  · split <;> omega

lemma char_eq_of_toNat_eq {c d : Char} (h : c.toNat = d.toNat) : c = d :=
  Char.ext (UInt32.ext h)

lemma toNat_bounds_of_isDigit {c : Char} (h : c.isDigit = true) :
    48 ≤ c.toNat ∧ c.toNat ≤ 57 := by
  simp only [Char.isDigit, Bool.and_eq_true, decide_eq_true_eq] at h
  obtain ⟨h1, h2⟩ := h
  constructor
  · exact h1
  · exact h2

lemma mem_digits_of_isDigit {c : Char} (h : c.isDigit = true) : c ∈ digits := by
  obtain ⟨h1, h2⟩ := toNat_bounds_of_isDigit h
  have hd : c.toNat = 48 ∨ c.toNat = 49 ∨ c.toNat = 50 ∨ c.toNat = 51 ∨
      c.toNat = 52 ∨ c.toNat = 53 ∨ c.toNat = 54 ∨ c.toNat = 55 ∨
      c.toNat = 56 ∨ c.toNat = 57 := by omega
  rcases hd with h' | h' | h' | h' | h' | h' | h' | h' | h' | h'
  · rw [@char_eq_of_toNat_eq c '0' (by rw [h']; decide)]; decide
  · rw [@char_eq_of_toNat_eq c '1' (by rw [h']; decide)]; decide
  · rw [@char_eq_of_toNat_eq c '2' (by rw [h']; decide)]; decide
  · rw [@char_eq_of_toNat_eq c '3' (by rw [h']; decide)]; decide
  · rw [@char_eq_of_toNat_eq c '4' (by rw [h']; decide)]; decide
  · rw [@char_eq_of_toNat_eq c '5' (by rw [h']; decide)]; decide
  · rw [@char_eq_of_toNat_eq c '6' (by rw [h']; decide)]; decide
  · rw [@char_eq_of_toNat_eq c '7' (by rw [h']; decide)]; decide
  · rw [@char_eq_of_toNat_eq c '8' (by rw [h']; decide)]; decide
  · rw [@char_eq_of_toNat_eq c '9' (by rw [h']; decide)]; decide

lemma length_six_shape {s : List Char} (h : s.length = 6) :
    ∃ a b c d e f, s = [a, b, c, d, e, f] := by
  rcases s with _ | ⟨a, s⟩; · simp at h
  rcases s with _ | ⟨b, s⟩; · simp at h
  rcases s with _ | ⟨c, s⟩; · simp at h
  rcases s with _ | ⟨d, s⟩; · simp at h
  rcases s with _ | ⟨e, s⟩; · simp at h
  rcases s with _ | ⟨f, s⟩; · simp at h
  rcases s with _ | ⟨g, s⟩
  · exact ⟨a, b, c, d, e, f, rfl⟩
  · simp at h

/-- C3: validate_date_suffix returns false on every string whose length is
not 6, and on 6-character digit strings it agrees exactly with the strict
calendar rule (day at least 1 and consistent with the month, month in 1..12,
under the fixed two-digit-year pivot); the four concrete examples of the
claim hold.  Totality (never raises) is reflected by validate_date_suffix
being a total Bool-valued function. -/
theorem validate_date_suffix_spec :
    (∀ s : List Char, s.length ≠ 6 → validate_date_suffix s = false) ∧
    (∀ s : List Char, s.length = 6 → (∀ c ∈ s, c.isDigit = true) →
      validate_date_suffix s = specValidDDMMYY s) ∧
    validate_date_suffix "010199".toList = true ∧
    validate_date_suffix "320199".toList = false ∧
    validate_date_suffix "301399".toList = false ∧
    validate_date_suffix "000199".toList = false := by
  refine ⟨?_, ?_, by decide, by decide, by decide, by decide⟩
  · intro s h
    simp [validate_date_suffix, h]
  · intro s h6 hdig
    obtain ⟨a, b, c, d, e, f, rfl⟩ := length_six_shape h6
    have hva := mem_digits_of_isDigit (hdig a (by simp))
    have hvb := mem_digits_of_isDigit (hdig b (by simp))
    have hvc := mem_digits_of_isDigit (hdig c (by simp))
    have hvd := mem_digits_of_isDigit (hdig d (by simp))
    have hve := mem_digits_of_isDigit (hdig e (by simp))
    have hvf := mem_digits_of_isDigit (hdig f (by simp))
    have h31 := daysInMonth_le_31 (10 * digVal c + digVal d)
      (pivotYear (10 * digVal e + digVal f))
    simp only [validate_date_suffix, strptimeDDMMYY, specValidDDMMYY,
      List.length_cons, List.length_nil]
    rw [dayMatch2_digit a hva b hvb, monthMatch2_digit c hvc d hvd,
      yearMatch2_digit e hve f hvf]
    rw [Bool.eq_iff_iff]
    split_ifs with hlen hday hmon <;>
      simp only [Option.isSome_some, Option.isSome_none, Bool.and_eq_true,
        decide_eq_true_eq, Bool.false_eq_true, false_iff, true_iff,
        not_and, not_le] <;>
      try omega
    by_cases hfit : 10 * digVal a + digVal b ≤
        daysInMonth (10 * digVal c + digVal d) (pivotYear (10 * digVal e + digVal f))
    · rw [if_pos hfit]
      simp only [Option.isSome_some, eq_self_iff_true, true_iff]
      omega
    · rw [if_neg hfit]
      simp only [Option.isSome_none, Bool.false_eq_true, false_iff, not_and,
        not_le]
      omega

/-- C10: the embedded validate_date_suffix is a total Bool-valued function;
two-digit years follow the strptime pivot (0..68 means 2000..2068, 69..99
means 1969..1999), so the validity of a Feb 29 suffix depends on the
inferred century: for every pair of year digits, "2902" followed by them is
accepted exactly when the pivoted year is a leap year; in particular
"290200" is accepted (2000 is a leap year) and "290299" is rejected
(1999 is not). -/
theorem strptime_pivot_leap :
    (∀ e ∈ digits, ∀ f ∈ digits,
      validate_date_suffix ['2', '9', '0', '2', e, f] =
        isLeap (pivotYear (10 * digVal e + digVal f))) ∧
    (∀ y : Nat, pivotYear y = if y ≤ 68 then 2000 + y else 1900 + y) ∧
    validate_date_suffix "290200".toList = true ∧
    validate_date_suffix "290299".toList = false := by
  refine ⟨by decide, fun y => rfl, by decide, by decide⟩

/-- Witness for C3 at the concrete digit string "320199". -/
theorem validate_date_suffix_spec_witness :
    validate_date_suffix "320199".toList = specValidDDMMYY "320199".toList :=
  validate_date_suffix_spec.2.1 "320199".toList (by decide) (by decide)

/-- Witness for C10 at the concrete year digits 0 and 0. -/
theorem strptime_pivot_leap_witness :
    validate_date_suffix ['2', '9', '0', '2', '0', '0'] =
      isLeap (pivotYear (10 * digVal '0' + digVal '0')) :=
  strptime_pivot_leap.1 '0' (by decide) '0' (by decide)

lemma range'_drop : ∀ (i s n : Nat),
    (List.range' s n).drop i = List.range' (s + i) (n - i) := by
  intro i
  induction i with
  | zero => intro s n; simp
  | succ i ih =>
    intro s n
    cases n with
    | zero => simp
    | succ n =>
      rw [List.range'_succ]
      simp only [List.drop_succ_cons]
      rw [ih (s + 1) n]
      congr 1 <;> omega

lemma range'_take : ∀ (i s n : Nat),
    (List.range' s n).take i = List.range' s (min i n) := by
  intro i
  induction i with
  | zero => intro s n; simp
  | succ i ih =>
    intro s n
    cases n with
    | zero => simp
    | succ n =>
      rw [List.range'_succ]
      simp only [List.take_succ_cons]
      rw [ih (s + 1) n]
      rw [show min (i + 1) (n + 1) = (min i n) + 1 from by omega]
      rw [List.range'_succ]

lemma range_mul_flatMap {α : Type} (n m : Nat) (f : Nat → α) :
    (List.range (n * m)).map f =
      (List.range n).flatMap
        (fun b => (List.range m).map (fun r => f (b * m + r))) := by
  induction n with
  | zero => simp
  | succ n ih =>
    rw [Nat.succ_mul, List.range_add, List.map_append, ih, List.range_succ,
      List.flatMap_append]
    congr 1
    simp only [List.flatMap_cons, List.flatMap_nil, List.append_nil,
      List.map_map]
    rfl

lemma zeropad_mod : ∀ (k idx : Nat), zeropad k (idx % 10 ^ k) = zeropad k idx := by
  intro k
  induction k with
  | zero => intro idx; rfl
  | succ k ih =>
    intro idx
    simp only [zeropad]
    congr 1
    · congr 1
      rw [pow_succ, Nat.mod_mul_right_div_self]
      generalize idx / 10 ^ k = x
      omega
    · rw [← ih (idx % 10 ^ (k + 1)),
        Nat.mod_mod_of_dvd idx (pow_dvd_pow 10 (Nat.le_succ k))]
      exact ih idx

lemma zeropad_block (k b r : Nat) (hb : b < 10) (hr : r < 10 ^ k) :
    zeropad (k + 1) (b * 10 ^ k + r) = digitChar b :: zeropad k r := by
  simp only [zeropad]
  congr 1
  · congr 1
    rw [show b * 10 ^ k + r = r + 10 ^ k * b from by ring,
      Nat.add_mul_div_left r b (pow_pos (by norm_num) k),
      Nat.div_eq_of_lt hr]
    simp [Nat.mod_eq_of_lt hb]
  · rw [← zeropad_mod k (b * 10 ^ k + r),
      show b * 10 ^ k + r = r + 10 ^ k * b from by ring,
      Nat.add_mul_mod_self_left, Nat.mod_eq_of_lt hr]

lemma digits_eq_map : digits = (List.range 10).map digitChar := by decide

lemma productList_eq : ∀ k, productList k = (List.range (10 ^ k)).map (zeropad k) := by
  intro k
  induction k with
  | zero => rfl
  | succ k ih =>
    rw [show productList (k + 1) =
        digits.flatMap (fun d => (productList k).map (fun rest => d :: rest))
      from rfl]
    rw [ih, digits_eq_map, List.flatMap_map, pow_succ',
      range_mul_flatMap 10 (10 ^ k) (zeropad (k + 1))]
    apply List.flatMap_congr
    intro b hb
    rw [List.map_map]
    apply List.map_congr_left
    intro r hr
    simp only [Function.comp]
    rw [zeropad_block k b r (List.mem_range.mp hb) (List.mem_range.mp hr)]

lemma productList_length (k : Nat) : (productList k).length = 10 ^ k := by
  rw [productList_eq, List.length_map, List.length_range]

lemma productList_getD {k idx : Nat} (h : idx < 10 ^ k) :
    (productList k).getD idx [] = zeropad k idx := by
  rw [productList_eq, List.getD_eq_getElem?_getD, List.getElem?_map,
    List.getElem?_range h]
  rfl

/-- C2: for a worker over the slice from start to stop of the candidate
space (stop within the space), the candidate sequence the loop iterates is
exactly the indices start, start+1, ..., stop-1 in increasing order with
none skipped, and the candidate for index idx is the fixed part followed by
the zero-padded base-10 expansion of idx to 11 - len(fixed) digits when the
fixed part is a prefix, and that expansion followed by the fixed part when
it is a suffix; equivalently, the idx-th element of the lexicographic digit
product is that expansion. -/
theorem worker_candidate_order (fixed : List Char) (ip : Bool)
    (start stop : Nat) (hlen : fixed.length = 5 ∨ fixed.length = 6)
    (hstop : stop ≤ 10 ^ (11 - fixed.length)) :
    candidateSlice fixed ip start stop =
      (List.range' start (stop - start)).map
        (fun idx => composePassword fixed ip (zeropad (11 - fixed.length) idx)) := by
  unfold candidateSlice
  rw [productList_eq, ← List.map_drop, ← List.map_take, List.map_map,
    List.range_eq_range', range'_drop, range'_take]
  rw [show min (stop - start) (10 ^ (11 - fixed.length) - start) = stop - start
    from by omega]
  rw [Nat.zero_add]
  rfl

/-- Witness for C2 at the concrete slice 2..4 with the prefix "12345". -/
theorem worker_candidate_order_witness :
    candidateSlice "12345".toList true 2 5 =
      (List.range' 2 (5 - 2)).map
        (fun idx =>
          composePassword "12345".toList true
            (zeropad (11 - "12345".toList.length) idx)) :=
  worker_candidate_order "12345".toList true 2 5 (Or.inl (by decide))
    (by norm_num)

/-- C6: a probe exception on a single candidate is treated exactly as a
not-a-match return value: the loop behaves identically whether the probe
raised or returned a non-1 value (same attempt count, same result, loop
continues); in particular a probe that raises on every candidate of the
slice still tries every candidate and reports no match, so a single probe
failure never aborts the remaining range and is never escalated. -/
theorem probe_error_continues :
    (∀ (decrypt : List Char → Except Unit Nat) (l : List (List Char)),
      runCandidates decrypt l = runCandidates (errAsNoMatch decrypt) l) ∧
    (∀ (decrypt : List Char → Except Unit Nat) (l : List (List Char)),
      (∀ pw ∈ l, ∃ e, decrypt pw = Except.error e) →
      runCandidates decrypt l = (l.length, none)) := by
  constructor
  · intro decrypt l
    induction l with
    | nil => rfl
    | cons pw rest ih =>
      simp only [runCandidates, errAsNoMatch]
      cases h : decrypt pw with
      | error e => simp [h, ih]
      | ok v =>
        match v with
        | 0 => simp [h, ih]
        | 1 => simp [h]
        | Nat.succ (Nat.succ n) => simp [h, ih]
  · intro decrypt l
    induction l with
    | nil => intro _; rfl
    | cons pw rest ih =>
      intro h
      obtain ⟨e, he⟩ := h pw (by simp)
      simp only [runCandidates, he, List.length_cons]
      rw [ih (fun q hq => h q (by simp [hq]))]

/-- Witness for C6: a probe raising on both candidates still counts both
attempts and reports no match. -/
theorem probe_error_continues_witness :
    runCandidates (fun _ => Except.error ()) ["12345000000".toList] =
      (["12345000000".toList].length, none) :=
  probe_error_continues.2 (fun _ => Except.error ()) ["12345000000".toList]
    (fun pw _ => ⟨(), rfl⟩)

lemma mem_productList {k : Nat} {l : List Char} (h : l ∈ productList k) :
    l.length = k ∧ (∀ c ∈ l, c.isDigit = true) := by
  induction k generalizing l with
  | zero =>
    simp only [productList, List.mem_singleton] at h
    subst h
    simp
  | succ k ih =>
    simp only [productList, List.mem_flatMap, List.mem_map] at h
    obtain ⟨d, hd, rest, hrest, rfl⟩ := h
    obtain ⟨hl, hdig⟩ := ih hrest
    refine ⟨by simp [hl], ?_⟩
    intro c hc
    rcases List.mem_cons.mp hc with rfl | hc
    · exact (show ∀ x ∈ digits, x.isDigit = true from by decide) c hd
    · exact hdig c hc

/-- C9 (amended): every candidate the worker composes from its enumeration
has length exactly 11 (for any accepted fixed part, whose length is at most
11), and its variable part consists of digit characters only; the whole
candidate is all-digits exactly when the fixed part is all-digits.  The
source never checks that the fixed part is numeric, so the full 11-digit
invariant of the claim holds only for digit fixed parts. -/
theorem password_shape_invariant (fixed : List Char) (ip : Bool)
    (rest : List Char) (hfl : fixed.length ≤ 11)
    (hm : rest ∈ productList (11 - fixed.length)) :
    (composePassword fixed ip rest).length = 11 ∧
    (∀ c ∈ rest, c.isDigit = true) ∧
    (composePassword fixed ip rest).all Char.isDigit =
      fixed.all Char.isDigit := by
  obtain ⟨hl, hdig⟩ := mem_productList hm
  have hall : rest.all Char.isDigit = true :=
    List.all_eq_true.mpr (fun c hc => hdig c hc)
  refine ⟨?_, hdig, ?_⟩
  · unfold composePassword
    split <;> rw [List.length_append] <;> omega
  · unfold composePassword
    split <;> rw [List.all_append, hall]
    · exact Bool.and_true _
    · exact Bool.true_and _

/-- Witness for C9 (amended) at the prefix "12345" and variable part
"000000". -/
theorem password_shape_invariant_witness :
    (composePassword "12345".toList true "000000".toList).length = 11 ∧
    (∀ c ∈ "000000".toList, c.isDigit = true) ∧
    (composePassword "12345".toList true "000000".toList).all Char.isDigit =
      "12345".toList.all Char.isDigit :=
  password_shape_invariant "12345".toList true "000000".toList (by decide)
    (by decide)

/-- C9 counterexample: the run with the non-numeric 5-character fixed part
"abcde" passes the input validation of __main__ (only the length is
checked), yet the first candidate the worker submits to the probe,
"abcde000000", is not an all-digit string, so the Password invariant of the
claim does not hold for every run that passes input validation. -/
theorem password_digit_counterexample :
    validate_args (some "abcde") none = ArgsOutcome.run "abcde".toList true ∧
    (candidateSlice "abcde".toList true 0 1).all
      (fun pw => pw.all Char.isDigit) = false := by
  constructor
  · decide
  · decide

lemma splitRanges_getD {total n i : Nat} (h : i < n) :
    (splitRanges total n).getD i (0, 0) =
      (i * (total / n),
        if i < n - 1 then (i + 1) * (total / n) else total) := by
  unfold splitRanges
  rw [List.getD_eq_getElem?_getD, List.getElem?_map, List.getElem?_range h]
  rfl

lemma splitRanges_length (total n : Nat) : (splitRanges total n).length = n := by
  unfold splitRanges
  rw [List.length_map, List.length_range]

lemma lt_div_succ_mul (x c : Nat) (h : 0 < c) : x < (x / c + 1) * c := by
  have h1 := Nat.div_add_mod x c
  have h2 := Nat.mod_lt x h
  have h3 : (x / c + 1) * c = x / c * c + c := by ring
  have h4 : x / c * c = c * (x / c) := by ring
  omega

lemma mul_div_le_self_of_le {a b c : Nat} (h : a ≤ b / c) : a * c ≤ b :=
  Nat.le_trans (Nat.mul_le_mul_right c h) (Nat.div_mul_le_self b c)

lemma split_disjoint_aux {total n i j : Nat} (hij : i < j) (hj : j < n) :
    ∀ x, inRange ((splitRanges total n).getD i (0, 0)) x →
      ¬ inRange ((splitRanges total n).getD j (0, 0)) x := by
  intro x hxi hxj
  rw [splitRanges_getD (Nat.lt_trans hij hj)] at hxi
  rw [splitRanges_getD hj] at hxj
  unfold inRange at hxi hxj
  have hii : i < n - 1 := by omega
  rw [if_pos hii] at hxi
  have hle : (i + 1) * (total / n) ≤ j * (total / n) :=
    Nat.mul_le_mul_right _ (by omega)
  simp only at hxi hxj
  omega

lemma split_cover {total n : Nat} (hn : 1 ≤ n) (x : Nat) :
    x < total ↔
      ∃ i, i < n ∧ inRange ((splitRanges total n).getD i (0, 0)) x := by
  constructor
  · intro hx
    by_cases hc : total / n = 0
    · refine ⟨n - 1, by omega, ?_⟩
      rw [splitRanges_getD (show n - 1 < n by omega)]
      unfold inRange
      rw [if_neg (show ¬ n - 1 < n - 1 by omega)]
      exact ⟨by simp [hc], hx⟩
    · have hcpos : 0 < total / n := Nat.pos_of_ne_zero hc
      by_cases hq : x / (total / n) < n - 1
      · refine ⟨x / (total / n), by omega, ?_⟩
        rw [splitRanges_getD (show x / (total / n) < n by omega)]
        unfold inRange
        rw [if_pos hq]
        exact ⟨Nat.div_mul_le_self x _, lt_div_succ_mul x _ hcpos⟩
      · refine ⟨n - 1, by omega, ?_⟩
        rw [splitRanges_getD (show n - 1 < n by omega)]
        unfold inRange
        rw [if_neg (show ¬ n - 1 < n - 1 by omega)]
        exact ⟨mul_div_le_self_of_le (by omega), hx⟩
  · rintro ⟨i, hi, hx⟩
    rw [splitRanges_getD hi] at hx
    unfold inRange at hx
    by_cases hii : i < n - 1
    · rw [if_pos hii] at hx
      have h1 : (i + 1) * (total / n) ≤ n * (total / n) :=
        Nat.mul_le_mul_right _ (by omega)
      have h2 : n * (total / n) ≤ total := by
        rw [Nat.mul_comm]
        exact Nat.div_mul_le_self total n
      simp only at hx
      omega
    · rw [if_neg hii] at hx
      simp only at hx
      omega

/-- C1: for every worker count n at least 1 and fixed length 5 or 6, with
total = 10^(11 - fixed length) and chunk = total / n rounded down, the
splitting loop produces exactly n ranges; worker i gets the half-open range
from i*chunk to (i+1)*chunk except the last worker, whose range ends at
total; the ranges are pairwise disjoint; their union is exactly the indices
below total; and in the degenerate case n > total the chunk is 0 and every
non-last range is empty. -/
theorem spaceSplitter_partition (flen n : Nat) (hf : flen = 5 ∨ flen = 6)
    (hn : 1 ≤ n) :
    (splitRanges (10 ^ (11 - flen)) n).length = n ∧
    (∀ i, i < n →
      (splitRanges (10 ^ (11 - flen)) n).getD i (0, 0) =
        (i * (10 ^ (11 - flen) / n),
          if i < n - 1 then (i + 1) * (10 ^ (11 - flen) / n)
          else 10 ^ (11 - flen))) ∧
    (∀ i j, i < n → j < n → i ≠ j → ∀ x,
      inRange ((splitRanges (10 ^ (11 - flen)) n).getD i (0, 0)) x →
      ¬ inRange ((splitRanges (10 ^ (11 - flen)) n).getD j (0, 0)) x) ∧
    (∀ x, x < 10 ^ (11 - flen) ↔
      ∃ i, i < n ∧
        inRange ((splitRanges (10 ^ (11 - flen)) n).getD i (0, 0)) x) ∧
    (10 ^ (11 - flen) < n →
      10 ^ (11 - flen) / n = 0 ∧
      ∀ i, i < n - 1 →
        ((splitRanges (10 ^ (11 - flen)) n).getD i (0, 0)).1 =
          ((splitRanges (10 ^ (11 - flen)) n).getD i (0, 0)).2) := by
  refine ⟨splitRanges_length _ n, ?_, ?_, split_cover hn, ?_⟩
  · intro i hi
    exact splitRanges_getD hi
  · intro i j hi hj hij x hx
    rcases Nat.lt_or_ge i j with h | h
    · exact split_disjoint_aux h hj x hx
    · have h' : j < i := by omega
      intro hxj
      exact split_disjoint_aux h' hi x hxj hx
  · intro hlt
    have hc : 10 ^ (11 - flen) / n = 0 := Nat.div_eq_of_lt hlt
    refine ⟨hc, ?_⟩
    intro i hi
    rw [splitRanges_getD (show i < n by omega), if_pos hi]
    simp [hc]

/-- Witness for C1 with fixed length 5 and 3 workers. -/
theorem spaceSplitter_partition_witness :
    (splitRanges (10 ^ (11 - 5)) 3).length = 3 ∧
    (∀ i, i < 3 →
      (splitRanges (10 ^ (11 - 5)) 3).getD i (0, 0) =
        (i * (10 ^ (11 - 5) / 3),
          if i < 3 - 1 then (i + 1) * (10 ^ (11 - 5) / 3)
          else 10 ^ (11 - 5))) ∧
    (∀ i j, i < 3 → j < 3 → i ≠ j → ∀ x,
      inRange ((splitRanges (10 ^ (11 - 5)) 3).getD i (0, 0)) x →
      ¬ inRange ((splitRanges (10 ^ (11 - 5)) 3).getD j (0, 0)) x) ∧
    (∀ x, x < 10 ^ (11 - 5) ↔
      ∃ i, i < 3 ∧
        inRange ((splitRanges (10 ^ (11 - 5)) 3).getD i (0, 0)) x) ∧
    (10 ^ (11 - 5) < 3 →
      10 ^ (11 - 5) / 3 = 0 ∧
      ∀ i, i < 3 - 1 →
        ((splitRanges (10 ^ (11 - 5)) 3).getD i (0, 0)).1 =
          ((splitRanges (10 ^ (11 - 5)) 3).getD i (0, 0)).2) :=
  spaceSplitter_partition 5 3 (Or.inl rfl) (by norm_num)

/-- C8 counterexample: supplying both arguments, with the prefix given as
the empty string, is accepted by the validation block: the Python
truthiness test treats the supplied empty prefix as absent, so no usage
error is reported (although both arguments were supplied and the supplied
prefix does not have length 5) and the search proceeds with the suffix. -/
theorem args_both_supplied_counterexample :
    validate_args (some "") (some "010199") =
      ArgsOutcome.run "010199".toList false := by decide

/-- C8 (amended): with a supplied argument read through Python truthiness
(an absent or empty string counts as not supplied), the claim holds: the
validation block of __main__ reports a usage error and stops before any
search exactly when both arguments are supplied, or neither is, or the
supplied prefix does not have length 5, or the supplied suffix is not a
valid 6-digit DDMMYY date; otherwise the run proceeds with exactly one
active fixed part, the supplied one. -/
theorem args_validation_characterization (pre sfx : Option String) :
    ((∃ m, validate_args pre sfx = ArgsOutcome.usage m) ↔
      (truthyOpt pre = true ∧ truthyOpt sfx = true) ∨
      (truthyOpt pre = true ∧ (pre.getD "").length ≠ 5) ∨
      (truthyOpt sfx = true ∧ ((sfx.getD "").length ≠ 6 ∨
        validate_date_suffix (sfx.getD "").toList = false)) ∨
      (truthyOpt pre = false ∧ truthyOpt sfx = false)) ∧
    (∀ f ip, validate_args pre sfx = ArgsOutcome.run f ip →
      (truthyOpt pre = true ∧ truthyOpt sfx = false ∧ ip = true ∧
        f = (pre.getD "").toList) ∨
      (truthyOpt pre = false ∧ truthyOpt sfx = true ∧ ip = false ∧
        f = (sfx.getD "").toList)) := by
  cases hp : truthyOpt pre <;> cases hs : truthyOpt sfx
  · constructor
    · simp [validate_args, hp, hs]
    · intro f ip h
      simp [validate_args, hp, hs] at h
  · by_cases h6 : (sfx.getD "").length = 6 ∧
        validate_date_suffix (sfx.getD "").data = true
    · constructor
      · simp [validate_args, hp, hs, h6.1, h6.2]
      · intro f ip h
        simp [validate_args, hp, hs, h6.1, h6.2] at h
        exact Or.inr ⟨rfl, rfl, h.2, h.1.symm⟩
    · have hval : validate_args pre sfx =
          ArgsOutcome.usage "Suffix must be a valid 6-digit date in the format DDMMYY." := by
        unfold validate_args
        rw [hp, hs]
        rcases not_and_or.mp h6 with h | h
        · simp [h]
        · have hv : validate_date_suffix (sfx.getD "").data = false := by
            revert h
            cases validate_date_suffix (sfx.getD "").data <;> simp
          simp [hv]
      constructor
      · constructor
        · intro _
          refine Or.inr (Or.inr (Or.inl ⟨rfl, ?_⟩))
          rcases not_and_or.mp h6 with h | h
          · exact Or.inl h
          · have hv : validate_date_suffix (sfx.getD "").data = false := by
              revert h
              cases validate_date_suffix (sfx.getD "").data <;> simp
            exact Or.inr hv
        · intro _
          exact ⟨_, hval⟩
      · intro f ip h
        rw [hval] at h
        exact absurd h (by simp)
  · by_cases h5 : (pre.getD "").length = 5
    · constructor
      · simp [validate_args, hp, hs, h5]
      · intro f ip h
        simp [validate_args, hp, hs, h5] at h
        exact Or.inl ⟨rfl, rfl, h.2, h.1.symm⟩
    · constructor
      · simp [validate_args, hp, hs, h5]
      · intro f ip h
        simp [validate_args, hp, hs, h5] at h
  · constructor
    · simp [validate_args, hp, hs]
    · intro f ip h
      simp [validate_args, hp, hs] at h

/-- Witness for C8 (amended) at a concrete valid prefix run. -/
theorem args_validation_characterization_witness :
    (truthyOpt (some "12345") = true ∧ truthyOpt (none : Option String) = false ∧
      true = true ∧ "12345".toList = ((some "12345").getD "").toList) ∨
    (truthyOpt (some "12345") = false ∧ truthyOpt (none : Option String) = true ∧
      true = false ∧ "12345".toList = ((none : Option String).getD "").toList) :=
  (args_validation_characterization (some "12345") none).2 "12345".toList true
    (by decide)

/-- C5 counterexample: when the document fails to open for every worker,
each worker process dies at the open step without reporting anything, and
the final report of parallel_brute_force is the Exhausted message; the
program has no distinct document-access outcome at all, so the claim that
the run ends in a DocumentAccessError report and never in the Exhausted
outcome is false on the code. -/
theorem open_failure_reported_as_exhausted :
    parallel_brute_force false (fun _ => Except.ok 0) "12345".toList true 2 =
      "Password not found. Exhausted all combinations." := by
  decide

/-- C5 (amended): if the open step fails for every worker, each worker dies
without emitting any queue message; the coordinator does not hang (joining
a dead process returns, and the embedding is a total function) and reports
the Exhausted message "Password not found. Exhausted all combinations.";
no DocumentAccessError outcome exists in the program. -/
theorem open_failure_outcome (decrypt : List Char → Except Unit Nat)
    (fixed : List Char) (ip : Bool) (n : Nat) :
    parallel_brute_force false decrypt fixed ip n =
      "Password not found. Exhausted all combinations." := by
  unfold parallel_brute_force workerOutputs
  have h : ∀ l : List (Nat × Nat),
      (l.flatMap (fun r => if false then
        (test_password_range decrypt fixed ip r.1 r.2).2 else [])) =
      ([] : List (Option (List Char))) := by
    intro l
    induction l with
    | nil => rfl
    | cons a t ih => rw [List.flatMap_cons, ih]; rfl
  rw [h]
  rfl

lemma getD_set_self {α : Type} (d : α) (l : List α) (i : Nat) (x : α)
    (h : i < l.length) : (l.set i x).getD i d = x := by
  rw [List.getD_eq_getElem?_getD, List.getElem?_set_eq_of_lt x h]
  rfl

lemma getD_set_ne {α : Type} (d : α) (l : List α) {i j : Nat} (x : α)
    (h : i ≠ j) : (l.set i x).getD j d = l.getD j d := by
  rw [List.getD_eq_getElem?_getD, List.getElem?_set_ne h,
    ← List.getD_eq_getElem?_getD]

lemma stepWorker_not_tracked {cfg : SysCfg} {s : SysSt} {i : Nat}
    (h : ¬ (i < s.ws.length ∧ i < cfg.ranges.length)) :
    stepWorker cfg s i = s := by
  unfold stepWorker
  rw [if_neg h]

lemma stepWorker_done {cfg : SysCfg} {s : SysSt} {i : Nat}
    (h1 : i < s.ws.length) (h2 : i < cfg.ranges.length)
    (hd : (s.ws.getD i ⟨0, false⟩).done = true) :
    stepWorker cfg s i = s := by
  unfold stepWorker
  rw [if_pos ⟨h1, h2⟩]
  simp only [hd, if_true]

lemma stepWorker_probe_true {cfg : SysCfg} {s : SysSt} {i : Nat}
    (h1 : i < s.ws.length) (h2 : i < cfg.ranges.length)
    (hd : (s.ws.getD i ⟨0, false⟩).done = false)
    (hlt : (s.ws.getD i ⟨0, false⟩).idx < (cfg.ranges.getD i (0, 0)).2)
    (hp : probeAt cfg (s.ws.getD i ⟨0, false⟩).idx = true) :
    stepWorker cfg s i =
      ⟨s.ws.set i ⟨(s.ws.getD i ⟨0, false⟩).idx, true⟩,
        s.queue ++ [some (candidateAt cfg (s.ws.getD i ⟨0, false⟩).idx)],
        s.counter + 1⟩ := by
  unfold stepWorker
  rw [if_pos ⟨h1, h2⟩]
  simp only [hd, hp, hlt, if_true, if_false, Bool.false_eq_true, if_pos]

lemma stepWorker_probe_false {cfg : SysCfg} {s : SysSt} {i : Nat}
    (h1 : i < s.ws.length) (h2 : i < cfg.ranges.length)
    (hd : (s.ws.getD i ⟨0, false⟩).done = false)
    (hlt : (s.ws.getD i ⟨0, false⟩).idx < (cfg.ranges.getD i (0, 0)).2)
    (hp : probeAt cfg (s.ws.getD i ⟨0, false⟩).idx = false) :
    stepWorker cfg s i =
      ⟨s.ws.set i ⟨(s.ws.getD i ⟨0, false⟩).idx + 1, false⟩,
        s.queue, s.counter + 1⟩ := by
  unfold stepWorker
  rw [if_pos ⟨h1, h2⟩]
  simp only [hd, hp, hlt, if_true, if_false, Bool.false_eq_true]

lemma stepWorker_finish {cfg : SysCfg} {s : SysSt} {i : Nat}
    (h1 : i < s.ws.length) (h2 : i < cfg.ranges.length)
    (hd : (s.ws.getD i ⟨0, false⟩).done = false)
    (hge : ¬ (s.ws.getD i ⟨0, false⟩).idx < (cfg.ranges.getD i (0, 0)).2) :
    stepWorker cfg s i =
      ⟨s.ws.set i ⟨(s.ws.getD i ⟨0, false⟩).idx, true⟩,
        s.queue ++ [none], s.counter⟩ := by
  unfold stepWorker
  rw [if_pos ⟨h1, h2⟩]
  simp only [hd, hge, if_true, if_false, Bool.false_eq_true]

lemma cfgC4_ranges : cfgC4.ranges = [(0, 500000), (500000, 1000000)] := by
  decide

lemma initSt_cfgC4 :
    initSt cfgC4 = ⟨[⟨0, false⟩, ⟨500000, false⟩], [], 0⟩ := by
  decide

lemma candidateAt_cfgC4_0 : candidateAt cfgC4 0 = "12345000000".toList := by
  unfold candidateAt
  rw [show (11 - cfgC4.fixed.length) = 6 from by decide]
  rw [productList_getD (show (0 : Nat) < 10 ^ 6 from by norm_num)]
  decide

lemma candidateAt_cfgC4_5 :
    candidateAt cfgC4 500000 = "12345500000".toList := by
  unfold candidateAt
  rw [show (11 - cfgC4.fixed.length) = 6 from by decide]
  rw [productList_getD (show (500000 : Nat) < 10 ^ 6 from by norm_num)]
  decide

lemma probeAt_eq (cfg : SysCfg) (idx : Nat) :
    probeAt cfg idx =
      match cfg.decrypt (candidateAt cfg idx) with
      | Except.ok 1 => true
      | _ => false := rfl

lemma probeAt_cfgC4_0 : probeAt cfgC4 0 = true := by
  rw [probeAt_eq, candidateAt_cfgC4_0]
  show (match decC4 "12345000000".toList with
    | Except.ok 1 => true
    | _ => false) = true
  rfl

lemma probeAt_cfgC4_5 : probeAt cfgC4 500000 = false := by
  rw [probeAt_eq, candidateAt_cfgC4_5]
  show (match decC4 "12345500000".toList with
    | Except.ok 1 => true
    | _ => false) = false
  rfl

lemma st1C4_eq :
    st1C4 = ⟨[⟨0, true⟩, ⟨500000, false⟩],
      [some "12345000000".toList], 1⟩ := by
  unfold st1C4
  rw [initSt_cfgC4]
  have hp : probeAt cfgC4
      ((SysSt.mk [⟨0, false⟩, ⟨500000, false⟩] [] 0).ws.getD 0
        ⟨0, false⟩).idx = true := probeAt_cfgC4_0
  rw [stepWorker_probe_true (by decide)
    (by rw [cfgC4_ranges]; decide) (by decide)
    (by rw [cfgC4_ranges]; decide) hp]
  have hc : candidateAt cfgC4
      ((SysSt.mk [⟨0, false⟩, ⟨500000, false⟩] [] 0).ws.getD 0
        ⟨0, false⟩).idx = "12345000000".toList := candidateAt_cfgC4_0
  rw [hc]
  decide

lemma st2C4_eq :
    stepWorker cfgC4 st1C4 1 =
      ⟨[⟨0, true⟩, ⟨500001, false⟩], [some "12345000000".toList], 2⟩ := by
  rw [st1C4_eq]
  have hp : probeAt cfgC4
      ((SysSt.mk [⟨0, true⟩, ⟨500000, false⟩]
        [some "12345000000".toList] 1).ws.getD 1 ⟨0, false⟩).idx = false :=
    probeAt_cfgC4_5
  rw [stepWorker_probe_false (by decide)
    (by rw [cfgC4_ranges]; decide) (by decide)
    (by rw [cfgC4_ranges]; decide) hp]
  decide

/-- C4 counterexample: in the two-worker run built by parallel_brute_force
for the prefix "12345", with a probe for which the very first candidate
decrypts, worker 0 emits its Found result (the queue holds the found
password), yet worker 1 then still begins a new probe: its next step
increments the shared attempt counter and advances its index instead of
stopping.  No stop signal reaches the workers, so the claim that after a
Found no other worker begins a new probe is false on the code. -/
theorem cancellation_counterexample :
    (∃ pw, some pw ∈ st1C4.queue) ∧
    (stepWorker cfgC4 st1C4 1).counter = st1C4.counter + 1 ∧
    ((stepWorker cfgC4 st1C4 1).ws.getD 1 ⟨0, false⟩).idx = 500001 ∧
    ((stepWorker cfgC4 st1C4 1).ws.getD 1 ⟨0, false⟩).done = false := by
  refine ⟨⟨"12345000000".toList, ?_⟩, ?_, ?_, ?_⟩
  · rw [st1C4_eq]
    decide
  · rw [st2C4_eq, st1C4_eq]
  · rw [st2C4_eq]
    decide
  · rw [st2C4_eq]
    decide

/-- C4 (amended): there is no cancellation mechanism for workers in the
code (the stop flag reaches only the monitor): a worker's transition is
entirely independent of the queue through which Found results are
reported.  Stepping any worker in a state whose queue has been replaced by
an arbitrary other queue yields the same workers, the same counter, and
appends the same messages; hence workers keep probing their ranges after a
Found has been emitted, stopping only on their own match or exhaustion. -/
theorem worker_ignores_found_signal (cfg : SysCfg) (s : SysSt)
    (q : List (Option (List Char))) (i : Nat) :
    (stepWorker cfg ⟨s.ws, q, s.counter⟩ i).ws = (stepWorker cfg s i).ws ∧
    (stepWorker cfg ⟨s.ws, q, s.counter⟩ i).counter =
      (stepWorker cfg s i).counter ∧
    (stepWorker cfg ⟨s.ws, q, s.counter⟩ i).queue.drop q.length =
      (stepWorker cfg s i).queue.drop s.queue.length := by
  by_cases hg : i < s.ws.length ∧ i < cfg.ranges.length
  · obtain ⟨h1, h2⟩ := hg
    by_cases hdone : (s.ws.getD i ⟨0, false⟩).done = true
    · rw [stepWorker_done h1 h2 hdone,
        @stepWorker_done cfg ⟨s.ws, q, s.counter⟩ i h1 h2 hdone]
      exact ⟨rfl, rfl, by rw [List.drop_length, List.drop_length]⟩
    · have hdone' : (s.ws.getD i ⟨0, false⟩).done = false := by
        revert hdone
        cases (s.ws.getD i ⟨0, false⟩).done <;> simp
      by_cases hlt : (s.ws.getD i ⟨0, false⟩).idx < (cfg.ranges.getD i (0, 0)).2
      · by_cases hpr : probeAt cfg (s.ws.getD i ⟨0, false⟩).idx = true
        · rw [stepWorker_probe_true h1 h2 hdone' hlt hpr,
            @stepWorker_probe_true cfg ⟨s.ws, q, s.counter⟩ i h1 h2 hdone' hlt hpr]
          refine ⟨rfl, rfl, ?_⟩
          show (q ++ _).drop q.length = (s.queue ++ _).drop s.queue.length
          rw [List.drop_left, List.drop_left]
        · have hpr' : probeAt cfg (s.ws.getD i ⟨0, false⟩).idx = false := by
            revert hpr
            cases probeAt cfg (s.ws.getD i ⟨0, false⟩).idx <;> simp
          rw [stepWorker_probe_false h1 h2 hdone' hlt hpr',
            @stepWorker_probe_false cfg ⟨s.ws, q, s.counter⟩ i h1 h2 hdone' hlt hpr']
          exact ⟨rfl, rfl, by rw [List.drop_length, List.drop_length]⟩
      · rw [stepWorker_finish h1 h2 hdone' hlt,
          @stepWorker_finish cfg ⟨s.ws, q, s.counter⟩ i h1 h2 hdone' hlt]
        refine ⟨rfl, rfl, ?_⟩
        show (q ++ _).drop q.length = (s.queue ++ _).drop s.queue.length
        rw [List.drop_left, List.drop_left]
  · rw [stepWorker_not_tracked hg,
      @stepWorker_not_tracked cfg ⟨s.ws, q, s.counter⟩ i hg]
    exact ⟨rfl, rfl, by rw [List.drop_length, List.drop_length]⟩

lemma sum_map_set_idx :
    ∀ (l : List WSt) (i : Nat) (n : Nat) (b : Bool), i < l.length →
      ((l.set i ⟨n, b⟩).map WSt.idx).sum + (l.getD i ⟨0, false⟩).idx =
        (l.map WSt.idx).sum + n := by
  intro l
  induction l with
  | nil =>
    intro i n b h
    simp at h
  | cons a t ih =>
    intro i n b h
    cases i with
    | zero =>
      rw [List.set_cons_zero]
      simp only [List.map_cons, List.sum_cons, List.getD_cons_zero]
      show n + (t.map WSt.idx).sum + a.idx = a.idx + (t.map WSt.idx).sum + n
      omega
    | succ i =>
      rw [List.set_cons_succ]
      simp only [List.map_cons, List.sum_cons, List.getD_cons_succ]
      have := ih i n b (by simpa using h)
      omega

lemma getD_map {α β : Type} (f : α → β) (l : List α) (j : Nat) (d : α)
    (d' : β) (h : j < l.length) : (l.map f).getD j d' = f (l.getD j d) := by
  rw [List.getD_eq_getElem?_getD, List.getElem?_map, List.getElem?_eq_getElem h,
    Option.map_some', Option.getD_some, List.getD_eq_getElem _ _ h]

lemma stepWorker_ws_cases (cfg : SysCfg) (s : SysSt) (i : Nat) :
    (stepWorker cfg s i).ws = s.ws ∨
    ∃ w, (stepWorker cfg s i).ws = s.ws.set i w := by
  by_cases hg : i < s.ws.length ∧ i < cfg.ranges.length
  · obtain ⟨h1, h2⟩ := hg
    by_cases hdone : (s.ws.getD i ⟨0, false⟩).done = true
    · rw [stepWorker_done h1 h2 hdone]
      exact Or.inl rfl
    · have hdone' : (s.ws.getD i ⟨0, false⟩).done = false := by
        revert hdone
        cases (s.ws.getD i ⟨0, false⟩).done <;> simp
      by_cases hlt : (s.ws.getD i ⟨0, false⟩).idx < (cfg.ranges.getD i (0, 0)).2
      · by_cases hpr : probeAt cfg (s.ws.getD i ⟨0, false⟩).idx = true
        · rw [stepWorker_probe_true h1 h2 hdone' hlt hpr]
          exact Or.inr ⟨_, rfl⟩
        · have hpr' : probeAt cfg (s.ws.getD i ⟨0, false⟩).idx = false := by
            revert hpr
            cases probeAt cfg (s.ws.getD i ⟨0, false⟩).idx <;> simp
          rw [stepWorker_probe_false h1 h2 hdone' hlt hpr']
          exact Or.inr ⟨_, rfl⟩
      · rw [stepWorker_finish h1 h2 hdone' hlt]
        exact Or.inr ⟨_, rfl⟩
  · rw [stepWorker_not_tracked hg]
    exact Or.inl rfl

lemma stepWorker_ws_length (cfg : SysCfg) (s : SysSt) (i : Nat) :
    (stepWorker cfg s i).ws.length = s.ws.length := by
  rcases stepWorker_ws_cases cfg s i with h | ⟨w, h⟩
  · rw [h]
  · rw [h, List.length_set]

lemma step_done_mono (cfg : SysCfg) (s : SysSt) (i j : Nat)
    (hd : (s.ws.getD i ⟨0, false⟩).done = true) :
    ((stepWorker cfg s j).ws.getD i ⟨0, false⟩).done = true := by
  by_cases hij : j = i
  · subst hij
    by_cases hg : j < s.ws.length ∧ j < cfg.ranges.length
    · rw [stepWorker_done hg.1 hg.2 hd]
      exact hd
    · rw [stepWorker_not_tracked hg]
      exact hd
  · rcases stepWorker_ws_cases cfg s j with h | ⟨w, h⟩
    · rw [h]
      exact hd
    · rw [h, getD_set_ne _ _ _ hij]
      exact hd

lemma runSched_append (cfg : SysCfg) :
    ∀ (l1 l2 : List Nat) (s : SysSt),
      runSched cfg (l1 ++ l2) s = runSched cfg l2 (runSched cfg l1 s) := by
  intro l1
  induction l1 with
  | nil => intro l2 s; rfl
  | cons a t ih =>
    intro l2 s
    simp only [List.cons_append, runSched]
    exact ih l2 _

lemma runSched_done_mono (cfg : SysCfg) :
    ∀ (sched : List Nat) (s : SysSt) (i : Nat),
      (s.ws.getD i ⟨0, false⟩).done = true →
      ((runSched cfg sched s).ws.getD i ⟨0, false⟩).done = true := by
  intro sched
  induction sched with
  | nil => intro s i h; exact h
  | cons a t ih =>
    intro s i h
    exact ih _ i (step_done_mono cfg s i a h)

lemma runSched_ws_length (cfg : SysCfg) :
    ∀ (sched : List Nat) (s : SysSt),
      (runSched cfg sched s).ws.length = s.ws.length := by
  intro sched
  induction sched with
  | nil => intro s; rfl
  | cons a t ih =>
    intro s
    show (runSched cfg t (stepWorker cfg s a)).ws.length = s.ws.length
    rw [ih, stepWorker_ws_length]

lemma stepWorker_inv {cfg : SysCfg} {s : SysSt} (i : Nat)
    (hnm : ∀ idx, probeAt cfg idx = false)
    (hinv : SysInv cfg s) : SysInv cfg (stepWorker cfg s i) := by
  obtain ⟨hlen, hws, hcnt⟩ := hinv
  by_cases hg : i < s.ws.length ∧ i < cfg.ranges.length
  · obtain ⟨h1, h2⟩ := hg
    by_cases hdone : (s.ws.getD i ⟨0, false⟩).done = true
    · rw [stepWorker_done h1 h2 hdone]
      exact ⟨hlen, hws, hcnt⟩
    · have hdone' : (s.ws.getD i ⟨0, false⟩).done = false := by
        revert hdone
        cases (s.ws.getD i ⟨0, false⟩).done <;> simp
      by_cases hlt : (s.ws.getD i ⟨0, false⟩).idx < (cfg.ranges.getD i (0, 0)).2
      · rw [stepWorker_probe_false h1 h2 hdone' hlt (hnm _)]
        refine ⟨?_, ?_, ?_⟩
        · show (s.ws.set i _).length = cfg.ranges.length
          rw [List.length_set]
          exact hlen
        · intro j hj
          show WSinv (cfg.ranges.getD j (0, 0))
            ((s.ws.set i ⟨(s.ws.getD i ⟨0, false⟩).idx + 1, false⟩).getD j
              ⟨0, false⟩)
          rw [List.length_set] at hj
          by_cases hij : i = j
          · subst hij
            rw [getD_set_self _ _ _ _ h1]
            have hw := hws i h1
            unfold WSinv at hw ⊢
            refine ⟨?_, ?_, ?_⟩
            · show (cfg.ranges.getD i (0, 0)).1 ≤
                (s.ws.getD i ⟨0, false⟩).idx + 1
              omega
            · show (s.ws.getD i ⟨0, false⟩).idx + 1 ≤
                (cfg.ranges.getD i (0, 0)).2
              omega
            · intro hcontra
              exact absurd hcontra (by simp)
          · rw [getD_set_ne _ _ _ hij]
            exact hws j hj
        · show (s.counter + 1) + (cfg.ranges.map Prod.fst).sum =
            idxSum ⟨s.ws.set i ⟨(s.ws.getD i ⟨0, false⟩).idx + 1, false⟩,
              s.queue, s.counter + 1⟩
          unfold idxSum at hcnt ⊢
          have hs := sum_map_set_idx s.ws i
            ((s.ws.getD i ⟨0, false⟩).idx + 1) false h1
          show (s.counter + 1) + (cfg.ranges.map Prod.fst).sum =
            ((s.ws.set i ⟨(s.ws.getD i ⟨0, false⟩).idx + 1, false⟩).map
              WSt.idx).sum
          omega
      · rw [stepWorker_finish h1 h2 hdone' hlt]
        refine ⟨?_, ?_, ?_⟩
        · show (s.ws.set i _).length = cfg.ranges.length
          rw [List.length_set]
          exact hlen
        · intro j hj
          show WSinv (cfg.ranges.getD j (0, 0))
            ((s.ws.set i ⟨(s.ws.getD i ⟨0, false⟩).idx, true⟩).getD j
              ⟨0, false⟩)
          rw [List.length_set] at hj
          by_cases hij : i = j
          · subst hij
            rw [getD_set_self _ _ _ _ h1]
            have hw := hws i h1
            unfold WSinv at hw ⊢
            refine ⟨?_, ?_, ?_⟩
            · show (cfg.ranges.getD i (0, 0)).1 ≤ (s.ws.getD i ⟨0, false⟩).idx
              omega
            · show (s.ws.getD i ⟨0, false⟩).idx ≤ (cfg.ranges.getD i (0, 0)).2
              omega
            · intro _
              show (s.ws.getD i ⟨0, false⟩).idx = (cfg.ranges.getD i (0, 0)).2
              omega
          · rw [getD_set_ne _ _ _ hij]
            exact hws j hj
        · show s.counter + (cfg.ranges.map Prod.fst).sum =
            idxSum ⟨s.ws.set i ⟨(s.ws.getD i ⟨0, false⟩).idx, true⟩,
              s.queue ++ [none], s.counter⟩
          unfold idxSum at hcnt ⊢
          have hs := sum_map_set_idx s.ws i
            ((s.ws.getD i ⟨0, false⟩).idx) true h1
          show s.counter + (cfg.ranges.map Prod.fst).sum =
            ((s.ws.set i ⟨(s.ws.getD i ⟨0, false⟩).idx, true⟩).map WSt.idx).sum
          omega
  · rw [stepWorker_not_tracked hg]
    exact ⟨hlen, hws, hcnt⟩

lemma runSched_inv {cfg : SysCfg} (hnm : ∀ idx, probeAt cfg idx = false) :
    ∀ (sched : List Nat) (s : SysSt),
      SysInv cfg s → SysInv cfg (runSched cfg sched s) := by
  intro sched
  induction sched with
  | nil => intro s h; exact h
  | cons a t ih =>
    intro s h
    exact ih _ (stepWorker_inv a hnm h)

lemma splitRanges_wf {total n : Nat} (hn : 1 ≤ n) :
    ∀ r ∈ splitRanges total n, r.1 ≤ r.2 := by
  intro r hr
  unfold splitRanges at hr
  simp only [List.mem_map, List.mem_range] at hr
  obtain ⟨i, hi, rfl⟩ := hr
  by_cases hii : i < n - 1
  · show i * (total / n) ≤ if i < n - 1 then (i + 1) * (total / n) else total
    rw [if_pos hii]
    exact Nat.mul_le_mul_right _ (by omega)
  · show i * (total / n) ≤ if i < n - 1 then (i + 1) * (total / n) else total
    rw [if_neg hii]
    calc i * (total / n) ≤ n * (total / n) :=
          Nat.mul_le_mul_right _ (by omega)
      _ ≤ total := by
          rw [Nat.mul_comm]
          exact Nat.div_mul_le_self total n

lemma initSt_inv (cfg : SysCfg) (hwf : ∀ r ∈ cfg.ranges, r.1 ≤ r.2) :
    SysInv cfg (initSt cfg) := by
  refine ⟨by simp [initSt], ?_, ?_⟩
  · intro j hj
    have hj' : j < cfg.ranges.length := by simpa [initSt] using hj
    show WSinv (cfg.ranges.getD j (0, 0))
      ((cfg.ranges.map (fun r => (⟨r.1, false⟩ : WSt))).getD j ⟨0, false⟩)
    rw [getD_map _ _ _ (0, 0) _ hj']
    have hm : cfg.ranges.getD j (0, 0) ∈ cfg.ranges := by
      rw [List.getD_eq_getElem _ _ hj']
      exact List.getElem_mem hj'
    unfold WSinv
    refine ⟨Nat.le_refl _, hwf _ hm, ?_⟩
    intro hcontra
    exact absurd hcontra (by simp)
  · show (0 : Nat) + (cfg.ranges.map Prod.fst).sum = idxSum (initSt cfg)
    unfold idxSum initSt
    rw [Nat.zero_add, List.map_map]
    congr 1

lemma sum_eq_of_getD {l1 l2 : List Nat} (hlen : l1.length = l2.length)
    (h : ∀ j, j < l1.length → l1.getD j 0 = l2.getD j 0) : l1.sum = l2.sum := by
  have heq : l1 = l2 := by
    apply List.ext_get hlen
    intro m h1 h2
    have hm := h m h1
    rw [List.getD_eq_getElem _ _ h1, List.getD_eq_getElem _ _ h2] at hm
    rw [List.get_eq_getElem, List.get_eq_getElem]
    exact hm
  rw [heq]

lemma completed_counter {cfg : SysCfg} {s : SysSt}
    (hinv : SysInv cfg s) (hc : CompletedSt s) :
    s.counter + (cfg.ranges.map Prod.fst).sum =
      (cfg.ranges.map Prod.snd).sum := by
  obtain ⟨hlen, hws, hcnt⟩ := hinv
  rw [hcnt]
  unfold idxSum
  apply sum_eq_of_getD
  · simp [hlen]
  · intro j hj
    have hj1 : j < s.ws.length := by simpa using hj
    have hj2 : j < cfg.ranges.length := by omega
    rw [getD_map WSt.idx s.ws j ⟨0, false⟩ 0 hj1,
      getD_map Prod.snd cfg.ranges j (0, 0) 0 hj2]
    have hm : s.ws.getD j ⟨0, false⟩ ∈ s.ws := by
      rw [List.getD_eq_getElem _ _ hj1]
      exact List.getElem_mem hj1
    exact (hws j hj1).2.2 (hc _ hm)

lemma sum_range_shift (m c : Nat) :
    ((List.range m).map (fun i => (i + 1) * c)).sum =
      ((List.range m).map (fun i => i * c)).sum + m * c := by
  induction m with
  | zero => simp
  | succ m ih =>
    rw [List.range_succ, List.map_append, List.map_append, List.sum_append,
      List.sum_append, ih]
    simp only [List.map_cons, List.map_nil, List.sum_cons, List.sum_nil]
    ring

lemma splitRanges_sum (total n : Nat) (hn : 1 ≤ n) :
    ((splitRanges total n).map Prod.snd).sum =
      ((splitRanges total n).map Prod.fst).sum + total := by
  unfold splitRanges
  rw [List.map_map, List.map_map]
  obtain ⟨m, rfl⟩ : ∃ m, n = m + 1 := ⟨n - 1, by omega⟩
  rw [List.range_succ, List.map_append, List.map_append, List.sum_append,
    List.sum_append]
  simp only [List.map_cons, List.map_nil, List.sum_cons, List.sum_nil,
    Function.comp]
  have h1 : (List.range m).map
      (Prod.snd ∘ fun i => (i * (total / (m + 1)),
        if i < m + 1 - 1 then (i + 1) * (total / (m + 1)) else total)) =
      (List.range m).map (fun i => (i + 1) * (total / (m + 1))) := by
    apply List.map_congr_left
    intro i hi
    show (if i < m + 1 - 1 then (i + 1) * (total / (m + 1)) else total) = _
    rw [if_pos (by simpa using List.mem_range.mp hi)]
  have h2 : (List.range m).map
      (Prod.fst ∘ fun i => (i * (total / (m + 1)),
        if i < m + 1 - 1 then (i + 1) * (total / (m + 1)) else total)) =
      (List.range m).map (fun i => i * (total / (m + 1))) := by
    apply List.map_congr_left
    intro i hi
    rfl
  rw [show (if m < m + 1 - 1 then (m + 1) * (total / (m + 1)) else total) =
    total from if_neg (by omega)]
  rw [h1, h2]
  have h3 := sum_range_shift m (total / (m + 1))
  omega

lemma run_replicate_done {cfg : SysCfg}
    (hnm : ∀ idx, probeAt cfg idx = false) :
    ∀ (m : Nat) (s : SysSt) (i : Nat), i < s.ws.length →
      i < cfg.ranges.length → SysInv cfg s →
      (cfg.ranges.getD i (0, 0)).2 + 1 ≤ m + (s.ws.getD i ⟨0, false⟩).idx →
      ((runSched cfg (List.replicate m i) s).ws.getD i ⟨0, false⟩).done =
        true := by
  intro m
  induction m with
  | zero =>
    intro s i h1 h2 hinv hm
    exfalso
    have := (hinv.2.1 i h1).2.1
    omega
  | succ m ih =>
    intro s i h1 h2 hinv hm
    rw [List.replicate_succ]
    show ((runSched cfg (List.replicate m i)
      (stepWorker cfg s i)).ws.getD i ⟨0, false⟩).done = true
    by_cases hdone : (s.ws.getD i ⟨0, false⟩).done = true
    · rw [stepWorker_done h1 h2 hdone]
      exact runSched_done_mono cfg _ s i hdone
    · have hdone' : (s.ws.getD i ⟨0, false⟩).done = false := by
        revert hdone
        cases (s.ws.getD i ⟨0, false⟩).done <;> simp
      by_cases hlt : (s.ws.getD i ⟨0, false⟩).idx < (cfg.ranges.getD i (0, 0)).2
      · have hstep := stepWorker_inv i hnm
          ⟨hinv.1, hinv.2.1, hinv.2.2⟩
        rw [stepWorker_probe_false h1 h2 hdone' hlt (hnm _)] at hstep ⊢
        apply ih
        · show i < (s.ws.set i _).length
          rw [List.length_set]
          exact h1
        · exact h2
        · exact hstep
        · show (cfg.ranges.getD i (0, 0)).2 + 1 ≤ m +
            ((s.ws.set i ⟨(s.ws.getD i ⟨0, false⟩).idx + 1, false⟩).getD i
              ⟨0, false⟩).idx
          rw [getD_set_self _ _ _ _ h1]
          show (cfg.ranges.getD i (0, 0)).2 + 1 ≤ m +
            ((s.ws.getD i ⟨0, false⟩).idx + 1)
          omega
      · rw [stepWorker_finish h1 h2 hdone' hlt]
        apply runSched_done_mono
        show ((s.ws.set i ⟨(s.ws.getD i ⟨0, false⟩).idx, true⟩).getD i
          ⟨0, false⟩).done = true
        rw [getD_set_self _ _ _ _ h1]

lemma run_blocks_done {cfg : SysCfg}
    (hnm : ∀ idx, probeAt cfg idx = false) :
    ∀ (L : List Nat) (s : SysSt), SysInv cfg s →
      (∀ j ∈ L, j < cfg.ranges.length) →
      ∀ j ∈ L,
        ((runSched cfg (L.flatMap (fun i => List.replicate
          ((cfg.ranges.getD i (0, 0)).2 - (cfg.ranges.getD i (0, 0)).1 + 1) i))
            s).ws.getD j ⟨0, false⟩).done = true := by
  intro L
  induction L with
  | nil =>
    intro s _ _ j hj
    simp at hj
  | cons a t ih =>
    intro s hinv hbound j hj
    rw [List.flatMap_cons, runSched_append]
    have ha : a < cfg.ranges.length := hbound a (by simp)
    have ha' : a < s.ws.length := by
      rw [hinv.1]
      exact ha
    have hinva : SysInv cfg (runSched cfg (List.replicate
        ((cfg.ranges.getD a (0, 0)).2 - (cfg.ranges.getD a (0, 0)).1 + 1) a)
        s) := runSched_inv hnm _ s hinv
    rcases List.mem_cons.mp hj with rfl | hjt
    · apply runSched_done_mono
      apply run_replicate_done hnm _ s j ha' ha hinv
      have hw := hinv.2.1 j ha'
      have h1 := hw.1
      have h2 := hw.2.1
      omega
    · exact ih _ hinva (fun x hx => hbound x (by simp [hx])) j hjt

lemma fullSched_completes {cfg : SysCfg}
    (hnm : ∀ idx, probeAt cfg idx = false)
    (hwf : ∀ r ∈ cfg.ranges, r.1 ≤ r.2) :
    CompletedSt (runSched cfg (fullSched cfg) (initSt cfg)) := by
  intro w hw
  obtain ⟨⟨m, hm⟩, rfl⟩ := List.mem_iff_get.mp hw
  have h0 : (initSt cfg).ws.length = cfg.ranges.length := by
    simp [initSt]
  have hrl := runSched_ws_length cfg (fullSched cfg) (initSt cfg)
  have hm' : m < cfg.ranges.length := by omega
  have hdone := run_blocks_done hnm (List.range cfg.ranges.length)
    (initSt cfg) (initSt_inv cfg hwf) (fun j hj => List.mem_range.mp hj) m
    (List.mem_range.mpr hm')
  have hfs : fullSched cfg = (List.range cfg.ranges.length).flatMap
      (fun i => List.replicate
        ((cfg.ranges.getD i (0, 0)).2 - (cfg.ranges.getD i (0, 0)).1 + 1) i) :=
    rfl
  rw [← hfs] at hdone
  rw [List.getD_eq_getElem _ _ hm] at hdone
  rw [List.get_eq_getElem]
  exact hdone

/-- C7: each probe attempt increments the shared counter exactly once (the
increment is performed under the lock, modelled as an atomic step), so for
every worker count of at least 1, fixed part of length 5 or 6 and probe
that never matches, and for every interleaving of worker steps after which
all workers have stopped, the final counter value is exactly
total = 10^(11 - fixed length): no update is lost under concurrent
access, and the counter equals the exact number of probes attempted. -/
theorem progress_counter_exact (fixed : List Char) (ip : Bool)
    (decrypt : List Char → Except Unit Nat) (n : Nat) (sched : List Nat)
    (hn : 1 ≤ n) (hlen : fixed.length = 5 ∨ fixed.length = 6)
    (hnm : ∀ pw, decrypt pw ≠ Except.ok 1)
    (hc : CompletedSt (runSched (mkCfg fixed ip decrypt n) sched
      (initSt (mkCfg fixed ip decrypt n)))) :
    (runSched (mkCfg fixed ip decrypt n) sched
      (initSt (mkCfg fixed ip decrypt n))).counter =
      10 ^ (11 - fixed.length) := by
  have hpnm : ∀ idx, probeAt (mkCfg fixed ip decrypt n) idx = false := by
    intro idx
    rw [probeAt_eq]
    cases hd : (mkCfg fixed ip decrypt n).decrypt
        (candidateAt (mkCfg fixed ip decrypt n) idx) with
    | error e => rfl
    | ok v =>
      rcases v with _ | _ | k
      · rfl
      · exact absurd hd (hnm _)
      · rfl
  have hwf : ∀ r ∈ (mkCfg fixed ip decrypt n).ranges, r.1 ≤ r.2 :=
    splitRanges_wf hn
  have hinv := runSched_inv hpnm sched _ (initSt_inv _ hwf)
  have hfin := completed_counter hinv hc
  have hre : (mkCfg fixed ip decrypt n).ranges =
      splitRanges (10 ^ (11 - fixed.length)) n := rfl
  rw [hre] at hfin
  have hsum := splitRanges_sum (10 ^ (11 - fixed.length)) n hn
  omega

/-- Witness for C7: a two-worker exhaustive run over the canonical
completing schedule with a never-matching probe ends with the counter at
exactly 10^6. -/
theorem progress_counter_exact_witness :
    (runSched (mkCfg "12345".toList true (fun _ => Except.ok 0) 2)
      (fullSched (mkCfg "12345".toList true (fun _ => Except.ok 0) 2))
      (initSt (mkCfg "12345".toList true (fun _ => Except.ok 0) 2))).counter =
      10 ^ (11 - "12345".toList.length) :=
  progress_counter_exact "12345".toList true (fun _ => Except.ok 0) 2
    (fullSched (mkCfg "12345".toList true (fun _ => Except.ok 0) 2))
    (by norm_num) (Or.inl (by decide)) (fun pw h => by simp at h)
    (fullSched_completes (fun idx => rfl)
      (splitRanges_wf (by norm_num)))
